import Mathlib

/-!
Verification development for the aibump change-classification and version-bump
engine.  JavaScript strings are modelled as `List Char`; each definition below
is a direct translation of the corresponding function in `src/analyzer.ts`
(noise filter, change-type detection, version arithmetic, exclusion set) or the
commit-truncation module (`estimateTokens`, `truncateDiffForCommit`).
-/

namespace Aibump

/-! ## Basic string-operation models -/

/-- JavaScript whitespace test (the `\s` character class / `String.trim` set). -/
def isJsSpace (c : Char) : Bool :=
  c = ' ' || c = '\t' || c = '\n' || c = '\r' || c = '\x0b' || c = '\x0c' ||
  c = '\u00A0' || c = '\u1680' || ('\u2000' ≤ c && c ≤ '\u200A') ||
  c = '\u2028' || c = '\u2029' || c = '\u202F' || c = '\u205F' ||
  c = '\u3000' || c = '\uFEFF'

/-- Consume the literal `lit` from the front of `cs`, returning the rest;
`none` if `cs` does not start with `lit`. -/
def eatLit : List Char → List Char → Option (List Char)
  | [], cs => some cs
  | _ :: _, [] => none
  | l :: ls, c :: cs => if c = l then eatLit ls cs else none

/-- JavaScript `String.startsWith`. -/
def isPre (pat cs : List Char) : Bool :=
  (eatLit pat cs).isSome

/-- JavaScript `String.includes` (substring containment). -/
def containsSub (pat : List Char) : List Char → Bool
  | [] => pat.isEmpty
  | c :: t => isPre pat (c :: t) || containsSub pat t

/-- JavaScript `String.split` with a single-character separator. -/
def splitOnChar (sep : Char) : List Char → List (List Char)
  | [] => [[]]
  | c :: rest =>
    if c = sep then [] :: splitOnChar sep rest
    else
      (c :: (splitOnChar sep rest).headI) :: (splitOnChar sep rest).tail

/-- JavaScript `Array.join('\n')` for lists of lines. -/
def joinLines : List (List Char) → List Char
  | [] => []
  | [l] => l
  | l :: ls => l ++ '\n' :: joinLines ls

/-- Decimal digit character for a single digit value. -/
def digitChar (k : Nat) : Char := Char.ofNat (48 + k)

/-- Fuel-driven digit accumulator: with fuel exceeding `n` this prepends the
decimal digits of `n` to `acc` (structural recursion so that proofs by
evaluation reduce in the kernel). -/
def natCharsAux : Nat → Nat → List Char → List Char
  | 0, _, acc => acc
  | fuel + 1, n, acc =>
    if n < 10 then digitChar n :: acc
    else natCharsAux fuel (n / 10) (digitChar (n % 10) :: acc)

/-- Canonical decimal rendering of a natural number
(JavaScript number-to-string on non-negative integers). -/
def natChars (n : Nat) : List Char := natCharsAux (n + 1) n []

/-- Value of a string of decimal digit characters. -/
def digitsVal (cs : List Char) : Nat :=
  cs.foldl (fun a c => 10 * a + (c.toNat - 48)) 0

/-- JavaScript number-to-string, restricted to exact integers.
(IEEE-754 rounding above 2^53 and exponent formatting above 1e21 are out of
scope for this development; no claim here depends on them.) -/
def intChars (i : Int) : List Char :=
  if i < 0 then '-' :: natChars i.natAbs else natChars i.toNat

/-- ECMAScript `Number(component)` for the dot-free components produced by
`version.split('.')`, with `none` standing for `NaN`.  Modelled fragment:
the empty string converts to `0`, and an optional sign followed by decimal
digits converts to the signed value.  Other successful exotic forms (hex,
binary, exponent notation, `Infinity`, surrounding whitespace) are mapped to
`none`; every string appearing in a theorem or evaluated witness below lies in
the faithfully modelled fragment, and every universally quantified statement
proved about `bumpVersion` quantifies only over digit-component strings. -/
def jsNumberOfComponent (cs : List Char) : Option Int :=
  match cs with
  | [] => some 0
  | c :: rest =>
    if c = '-' then
      if !rest.isEmpty && rest.all Char.isDigit then
        some (-(digitsVal rest : Int))
      else none
    else if c = '+' then
      if !rest.isEmpty && rest.all Char.isDigit then
        some ((digitsVal rest : Int))
      else none
    else if (c :: rest).all Char.isDigit then
      some ((digitsVal (c :: rest) : Int))
    else none

/-! ## Version-noise filter (`filterVersionChanges`, analyzer.ts lines 342-392) -/

/-- Test for `/^[-+]\s*"version":\s*"[\d.]+",?\s*$/` (a package.json
version-field mutation line). -/
def isPackageJsonVersionLine (cs : List Char) : Bool :=
  match cs with
  | [] => false
  | m :: r0 =>
    (m = '-' || m = '+') &&
    (match eatLit "\"version\":".data (r0.dropWhile isJsSpace) with
     | none => false
     | some r2 =>
       match r2.dropWhile isJsSpace with
       | '"' :: r4 =>
         let s := r4.span (fun c => c.isDigit || c = '.')
         match s.1, s.2 with
         | [], _ => false
         | _ :: _, '"' :: r6 =>
           let r7 := match r6 with | ',' :: t => t | _ => r6
           (r7.dropWhile isJsSpace).isEmpty
         | _ :: _, _ => false
       | _ => false)

/-- The part of the Helm pattern after the marker and the optional `app`:
`[Vv]ersion:\s*[\d.]+\s*$`. -/
def helmVerTail (r : List Char) : Bool :=
  match r with
  | [] => false
  | v :: r1 =>
    (v = 'V' || v = 'v') &&
    (match eatLit "ersion:".data r1 with
     | none => false
     | some r2 =>
       let s := (r2.dropWhile isJsSpace).span (fun c => c.isDigit || c = '.')
       !s.1.isEmpty && (s.2.dropWhile isJsSpace).isEmpty)

/-- Test for `/^[-+](app)?[Vv]ersion:\s*[\d.]+\s*$/` (a Chart.yaml
`version:` / `appVersion:` mutation line). -/
def isHelmVersionLine (cs : List Char) : Bool :=
  match cs with
  | [] => false
  | m :: r0 =>
    (m = '-' || m = '+') &&
    (helmVerTail r0 ||
     (match eatLit "app".data r0 with
      | some r1 => helmVerTail r1
      | none => false))

/-- A line matching either version-field mutation pattern. -/
def isVersionLine (cs : List Char) : Bool :=
  isPackageJsonVersionLine cs || isHelmVersionLine cs

/-- The line scan of `filterVersionChanges`: the indexed loop with its
`skipNextLines` counter is equivalent to this recursion — when the current
line and its successor both match a version pattern the pair is dropped and
the scan resumes after it, otherwise the current line is kept (a matching
line whose successor is absent, or is the falsy empty string, is kept: the
empty line never matches either pattern). -/
def filterLines : List (List Char) → List (List Char)
  | [] => []
  | [l] => [l]
  | l :: next :: rest =>
    if isVersionLine l && isVersionLine next then filterLines rest
    else l :: filterLines (next :: rest)

/-- `filterVersionChanges` (analyzer.ts): split on newlines, scan, re-join. -/
def filterVersionChanges (diff : List Char) : List Char :=
  joinLines (filterLines (splitOnChar '\n' diff))



/-! ## Change-type detection (`detectChangeType`, analyzer.ts lines 394-495) -/

/-- Lazy capture of `/(.+?) b\//`: the shortest non-empty prefix of the input
that is immediately followed by the literal `" b/"`. -/
def capAux : List Char → Option (List Char)
  | [] => none
  | c :: rest =>
    if isPre " b/".data rest then some [c]
    else (capAux rest).map (fun t => c :: t)

/-- Leftmost-match scan for `/diff --git a\/(.+?) b\//`: at each start
position try the literal `"diff --git a/"` followed by the lazy capture;
on failure advance one position, as the regex engine does. -/
def headerScan : List Char → Option (List Char)
  | [] => none
  | c :: rest =>
    if isPre "diff --git a/".data (c :: rest) then
      match capAux ((c :: rest).drop 13) with
      | some p => some p
      | none => headerScan rest
    else headerScan rest

/-- `line.match(/diff --git a\/(.+?) b\//)`, returning the captured path. -/
def matchDiffHeader (line : List Char) : Option (List Char) := headerScan line

/-- The `helmScriptExtensions` array of `detectChangeType`. -/
def helmScriptExtensions : List (List Char) :=
  [".sh".data, ".bash".data, ".py".data, ".js".data, ".ts".data,
   ".rb".data, ".pl".data, ".ps1".data, ".bat".data, ".cmd".data]

/-- The `isHelmScript` test of `detectChangeType`: some extension is a
substring of the current path, or the path references a `scripts/` or
`hooks/` segment (the two path checks sit inside the `some` callback in the
source, independent of the extension, exactly as modelled here). -/
def isHelmScriptFile (cur : List Char) : Bool :=
  helmScriptExtensions.any (fun ext =>
    containsSub ext cur || containsSub "scripts/".data cur ||
    containsSub "hooks/".data cur)

/-- The `type` field of the `ChangeType` result. -/
inductive CType
  | none
  | helmOnly
  | appOnly
  | both
deriving DecidableEq, Repr

/-- The `ChangeType` record returned by `detectChangeType`. -/
structure ChangeTypeR where
  type : CType
  helmChanges : Bool
  appChanges : Bool
deriving DecidableEq, Repr

/-- Loop state of `detectChangeType`: the tracked `currentFile` and the four
mutable booleans. -/
structure DetectSt where
  cur : List Char
  helm : Bool
  script : Bool
  nonScript : Bool
  app : Bool
deriving DecidableEq, Repr

/-- The metadata-line skip condition of the `detectChangeType` loop
(`line.trim() === ''` is equivalent to all characters being whitespace). -/
def isDetectMetaLine (line : List Char) : Bool :=
  isPre "---".data line || isPre "+++".data line || isPre "@@".data line ||
  isPre "index ".data line || isPre "new file mode".data line ||
  isPre "deleted file mode".data line || line.all isJsSpace

/-- One iteration of the `detectChangeType` loop body. -/
def stepLine (packageJsonExists : Bool) (s : DetectSt) (line : List Char) :
    DetectSt :=
  if isPre "diff --git".data line then
    match matchDiffHeader line with
    | some p => { s with cur := p }
    | none => s
  else if isDetectMetaLine line then s
  else
    let isHelmRelated :=
      isPre "helm/".data s.cur && !containsSub "Chart.yaml".data s.cur
    if isHelmRelated then
      if isHelmScriptFile s.cur then { s with helm := true, script := true }
      else { s with helm := true, nonScript := true }
    else if !s.cur.isEmpty then
      if packageJsonExists then { s with app := true }
      else { s with helm := true, nonScript := true }
    else s

/-- The return block of `detectChangeType`: the decision table applied to
the final loop state (checked in source order). -/
def decideChangeType (packageJsonExists : Bool) (s : DetectSt) : ChangeTypeR :=
  if !packageJsonExists then
    if s.helm then ⟨CType.helmOnly, true, false⟩
    else ⟨CType.none, false, false⟩
  else if s.helm && s.script && !s.nonScript && !s.app then
    ⟨CType.helmOnly, true, false⟩
  else if s.helm && s.app then ⟨CType.both, true, true⟩
  else if s.helm then ⟨CType.helmOnly, true, false⟩
  else if s.app then ⟨CType.appOnly, false, true⟩
  else ⟨CType.none, false, false⟩

/-- `detectChangeType` (analyzer.ts).  The filesystem check
`existsSync(packageJsonPath)` is passed in as the explicit parameter
`packageJsonExists`. -/
def detectChangeType (packageJsonExists : Bool) (changes : List Char) :
    ChangeTypeR :=
  if changes.all isJsSpace then ⟨CType.none, false, false⟩
  else decideChangeType packageJsonExists
    ((splitOnChar '\n' changes).foldl (stepLine packageJsonExists)
      ⟨[], false, false, false, false⟩)

/-! ## Exclusion set (`EXCLUDED_FILES` and the staged-changes filter,
analyzer.ts lines 165-220) -/

/-- The `EXCLUDED_FILES` rule data. -/
def EXCLUDED_FILES : List (List Char) :=
  ["package-lock.json".data, "yarn.lock".data, "pnpm-lock.yaml".data,
   "node_modules/".data, ".git/".data, "dist/".data, "build/".data,
   "coverage/".data, ".nyc_output/".data, "*.log".data, "*.min.js".data,
   "*.min.css".data]

/-- Split a rule at its first `*` (JavaScript `replace('*', '.*')` replaces
only the first occurrence; every rule in `EXCLUDED_FILES` has at most one). -/
def splitAtStar : List Char → List Char × List Char
  | [] => ([], [])
  | c :: t =>
    if c = '*' then ([], t)
    else
      match splitAtStar t with
      | (b, a) => (c :: b, a)

/-- Match a star-free regex fragment at the current position, where `.` is
the any-character wildcard and every other character is literal (the rules
contain no other regex metacharacters). -/
def matchSeqAt : List Char → List Char → Bool
  | [], _ => true
  | _ :: _, [] => false
  | p :: ps, c :: cs => (p = '.' || p = c) && matchSeqAt ps cs

/-- Unanchored search for a star-free fragment. -/
def findSeq (pat : List Char) : List Char → Bool
  | [] => matchSeqAt pat []
  | c :: t => matchSeqAt pat (c :: t) || findSeq pat t

/-- Unanchored test of `before ++ ".*" ++ after` against `file`:
some position matches `before` and `after` occurs at or past its end. -/
def starScan (b a : List Char) : List Char → Bool
  | [] => matchSeqAt b [] && findSeq a []
  | c :: t =>
    (matchSeqAt b (c :: t) && findSeq a ((c :: t).drop b.length)) ||
    starScan b a t

/-- `file.match(excluded.replace('*', '.*'))` as a boolean, for the
single-star rules of `EXCLUDED_FILES`. -/
def jsRegexRuleTest (rule file : List Char) : Bool :=
  starScan (splitAtStar rule).1 (splitAtStar rule).2 file

/-- The per-rule exclusion condition used by `getStagedChanges` and
`getUnstagedChanges`:
`file.includes(excluded) || (excluded.includes('*') && file.match(...))`. -/
def fileMatchesExcludedRule (rule file : List Char) : Bool :=
  containsSub rule file || (rule.contains '*' && jsRegexRuleTest rule file)

/-- A path matching some rule of the exclusion set. -/
def isExcludedFile (file : List Char) : Bool :=
  EXCLUDED_FILES.any (fun rule => fileMatchesExcludedRule rule file)

/-- `getStagedChanges`, with the git collaborator abstracted: the list of
staged files comes from `git.status()` and `diffOf` stands for
`git.diff(['--cached', ...relevantFiles])`.  An empty file list, or a file
list whose relevant (non-excluded) part is empty, yields the empty diff
without consulting git. -/
def getStagedChangesModel (files : List (List Char))
    (diffOf : List (List Char) → List Char) : List Char :=
  if files.isEmpty then []
  else
    let relevant := files.filter (fun f => !isExcludedFile f)
    if relevant.isEmpty then [] else diffOf relevant

/-! ## Version arithmetic (`bumpVersion`, analyzer.ts lines 531-548) -/

/-- The three bump kinds. -/
inductive BumpKind
  | major
  | minor
  | patch
deriving DecidableEq, Repr

/-- `bumpVersion` (analyzer.ts): split on dots, convert each component with
`Number`, throw (`none`) unless exactly three non-`NaN` components result,
then rebuild the bumped string.  `${x}` string interpolation of an integer
is `intChars`. -/
def bumpVersion (version : List Char) (t : BumpKind) : Option (List Char) :=
  match (splitOnChar '.' version).map jsNumberOfComponent with
  | [some a, some b, some c] =>
    some (match t with
      | BumpKind.major => intChars (a + 1) ++ ('.' :: '0' :: '.' :: '0' :: [])
      | BumpKind.minor =>
        intChars a ++ ('.' :: (intChars (b + 1) ++ ('.' :: '0' :: [])))
      | BumpKind.patch =>
        intChars a ++ ('.' :: (intChars b ++ ('.' :: intChars (c + 1)))))
  | _ => none

/-- The canonical `M.m.p` rendering of a numeric version triple. -/
def versionString (M m p : Nat) : List Char :=
  natChars M ++ ('.' :: (natChars m ++ ('.' :: natChars p)))

/-- Modelled from the spec's words (for comparison in claim C6, not from the
source): a "strict three-component dotted string of non-negative integers" —
splitting on dots yields exactly three components, each a non-empty string of
decimal digits. -/
def specStrictVersion (cs : List Char) : Bool :=
  (splitOnChar '.' cs).length = 3 &&
  (splitOnChar '.' cs).all (fun p => !p.isEmpty && p.all Char.isDigit)

/-- Strict lexicographic order on version triples. -/
def lex3Lt (x y : Nat × Nat × Nat) : Prop :=
  x.1 < y.1 ∨ (x.1 = y.1 ∧ (x.2.1 < y.2.1 ∨ (x.2.1 = y.2.1 ∧ x.2.2 < y.2.2)))

/-! ## Manifest mutation (`executeVersionBump` and friends,
analyzer.ts lines 713-810) -/

/-- Workspace state: the `version` field of package.json when that file
exists, and the (`version`, optional `appVersion`) fields of helm/Chart.yaml
when that file exists.  The best-effort package-lock refresh is explicitly
non-fatal in the source and is not part of this state. -/
structure Ws where
  pkg : Option (List Char)
  chart : Option (List Char × Option (List Char))
deriving DecidableEq, Repr

/-- `bumpHelmChartVersion`: throws (`none`) when the chart is missing or its
version is malformed, otherwise rewrites the chart `version` field. -/
def bumpHelmChartVersionM (t : BumpKind) (ws : Ws) : Option Ws :=
  match ws.chart with
  | none => none
  | some (v, av) =>
    (bumpVersion v t).map (fun nv => { ws with chart := some (nv, av) })

/-- `bumpNpmVersion`: rewrites the package.json `version` field. -/
def bumpNpmVersionM (t : BumpKind) (ws : Ws) : Option Ws :=
  match ws.pkg with
  | none => none
  | some v => (bumpVersion v t).map (fun nv => { ws with pkg := some nv })

/-- `syncHelmAppVersion`: copies the freshly written package.json version
into the chart `appVersion` mirror field; skips silently when either
manifest is missing. -/
def syncHelmAppVersionM (ws : Ws) : Ws :=
  match ws.chart, ws.pkg with
  | some (v, _), some pv => { ws with chart := some (v, some pv) }
  | _, _ => ws

/-- `executeVersionBump`: helm-only changes bump only the chart; app-only or
both bump package.json and sync the chart mirror when package.json exists,
falling back to a chart-only bump otherwise; a `none` change type performs
no mutation (the switch falls through). -/
def executeVersionBump (t : BumpKind) (ct : CType) (ws : Ws) : Option Ws :=
  match ct with
  | CType.helmOnly => bumpHelmChartVersionM t ws
  | CType.appOnly =>
    if ws.pkg.isSome then (bumpNpmVersionM t ws).map syncHelmAppVersionM
    else bumpHelmChartVersionM t ws
  | CType.both =>
    if ws.pkg.isSome then (bumpNpmVersionM t ws).map syncHelmAppVersionM
    else bumpHelmChartVersionM t ws
  | CType.none => some ws

/-! ## Commit-diff truncation (`estimateTokens` / `truncateDiffForCommit`) -/

/-- `estimateTokens`: `Math.ceil(text.length / 4)`. -/
def estimateTokens (text : List Char) : Nat := (text.length + 3) / 4

/-- Per-file segment collected by the truncation parser. -/
structure TFile where
  header : List (List Char)
  content : List (List Char)
  adds : Nat
  dels : Nat
deriving DecidableEq, Repr

/-- The header/metadata test of the truncation parser (its set differs from
the `detectChangeType` one: no blank-line case, and `index `/`@@` lines are
kept in the header segment). -/
def isTruncHeaderLine (line : List Char) : Bool :=
  isPre "index ".data line || isPre "---".data line || isPre "+++".data line ||
  isPre "new file mode".data line || isPre "deleted file mode".data line ||
  isPre "@@".data line

/-- One parsing step of `truncateDiffForCommit`: lines before the first
`diff --git` header are dropped; afterwards each line goes to the current
file's header or content, updating addition/deletion counts. -/
def truncParseStep (st : List TFile × Option TFile) (line : List Char) :
    List TFile × Option TFile :=
  if isPre "diff --git".data line then
    (match st.2 with
     | some f => st.1 ++ [f]
     | none => st.1,
     some ⟨[line], [], 0, 0⟩)
  else
    match st.2 with
    | none => st
    | some f =>
      if isTruncHeaderLine line then
        (st.1, some { f with header := f.header ++ [line] })
      else
        (st.1, some { f with
          content := f.content ++ [line],
          adds := f.adds +
            (if isPre "+".data line && !isPre "+++".data line then 1 else 0),
          dels := f.dels +
            (if isPre "-".data line && !isPre "---".data line then 1 else 0) })

/-- The file-segment parse of `truncateDiffForCommit`. -/
def truncParseFiles (lines : List (List Char)) : List TFile :=
  match lines.foldl truncParseStep ([], Option.none) with
  | (done, some f) => done ++ [f]
  | (done, none) => done

/-- The synthetic summary line
`... [${adds} additions, ${dels} deletions - content truncated] ...\n`. -/
def summaryCore (adds dels : Nat) : List Char :=
  "... [".data ++ natChars adds ++ " additions, ".data ++ natChars dels ++
  " deletions - content truncated] ...".data ++ ['\n']

/-- The emit loop of `truncateDiffForCommit`: headers are pushed
unconditionally; a file whose content still fits (strictly) under the target
is kept whole; the first overflowing file gets either a clamped content
slice plus the summary line (when more than 200 estimated characters
remain) or just the summary line, and the loop breaks, dropping all later
files.  `remainingChars` can be negative, hence the `Int` arithmetic.
`Math.floor(content.length * 0.3)` is modelled as `length * 3 / 10`; IEEE
rounding of the literal `0.3` makes the JavaScript value one smaller at
exact multiples of ten, which no theorem below depends on — the slice is
immediately clamped by `substring(0, remainingChars - 200)`, and every
concrete input evaluated below takes the summary-only branch. -/
def emitFiles (target : Nat) : List TFile → Nat → List (List Char)
  | [], _ => []
  | f :: rest, used =>
    let headerText := joinLines f.header
    let used1 := used + estimateTokens headerText
    let contentText := joinLines f.content
    if used1 + estimateTokens contentText < target then
      headerText :: contentText ::
        emitFiles target rest (used1 + estimateTokens contentText)
    else
      let remainingChars : Int := 4 * ((target : Int) - (used1 : Int))
      if remainingChars > 200 then
        let partText := joinLines (f.content.take (f.content.length * 3 / 10))
        [headerText, partText.take (remainingChars - 200).toNat,
         '\n' :: summaryCore f.adds f.dels]
      else
        [headerText, summaryCore f.adds f.dels]

/-- `truncateDiffForCommit`: return the diff unchanged when its estimate is
within the budget, otherwise parse into file segments and emit greedily. -/
def truncateDiffForCommit (diff : List Char) (maxTokens : Nat) : List Char :=
  if estimateTokens diff ≤ maxTokens then diff
  else joinLines (emitFiles maxTokens (truncParseFiles (splitOnChar '\n' diff)) 0)

/-! ## Structured diff construction (for stating per-file claims) -/

/-- One changed file of a unified diff: its path and its hunk lines. -/
structure FileEntry where
  path : List Char
  body : List (List Char)

/-- The `diff --git a/<path> b/<path>` header line for a path. -/
def headerLine (p : List Char) : List Char :=
  "diff --git a/".data ++ p ++ " b/".data ++ p

/-- The line sequence of a rendered multi-file diff. -/
def diffLinesOf : List FileEntry → List (List Char)
  | [] => []
  | e :: es => headerLine e.path :: (e.body ++ diffLinesOf es)

/-- A rendered multi-file unified diff. -/
def renderDiff (es : List FileEntry) : List Char := joinLines (diffLinesOf es)

/-- A path suitable for the scripts-only infra scenario: non-empty, free of
spaces and newlines (so the header regex extracts it exactly), under
`helm/`, not referencing `Chart.yaml`, and matching the helm-script test. -/
def GoodScriptPath (p : List Char) : Prop :=
  p ≠ [] ∧ ' ' ∉ p ∧ '\n' ∉ p ∧ isPre "helm/".data p = true ∧
  containsSub "Chart.yaml".data p = false ∧ isHelmScriptFile p = true

/-- A hunk line of a rendered diff: newline-free and not itself a
`diff --git` header. -/
def BodyLineOk (l : List Char) : Prop :=
  isPre "diff --git".data l = false ∧ '\n' ∉ l

/-- A structurally good entry for the scripts-only scenario. -/
def GoodEntry (e : FileEntry) : Prop :=
  GoodScriptPath e.path ∧ ∀ l ∈ e.body, BodyLineOk l

/-- A line the `detectChangeType` loop classifies (neither header nor
skipped metadata). -/
def ContentLine (l : List Char) : Prop :=
  isPre "diff --git".data l = false ∧ isDetectMetaLine l = false

/-- Invariant of the `detectChangeType` loop state while scanning a
scripts-only infra diff. -/
def DetectInv (s : DetectSt) : Prop :=
  (s.cur = [] ∨ (isPre "helm/".data s.cur = true ∧
    containsSub "Chart.yaml".data s.cur = false ∧
    isHelmScriptFile s.cur = true)) ∧
  s.app = false ∧ s.nonScript = false

instance (p : List Char) : Decidable (GoodScriptPath p) := by
  unfold GoodScriptPath; infer_instance

instance (l : List Char) : Decidable (BodyLineOk l) := by
  unfold BodyLineOk; infer_instance

instance (e : FileEntry) : Decidable (GoodEntry e) := by
  unfold GoodEntry; infer_instance

instance (l : List Char) : Decidable (ContentLine l) := by
  unfold ContentLine; infer_instance

/-- Specification predicate: no two adjacent lines both match a version
pattern. -/
def noPairB : List (List Char) → Bool
  | a :: b :: t => (!(isVersionLine a && isVersionLine b)) && noPairB (b :: t)
  | _ => true

/-- The concrete diff of scenario claim C9: a `helm/Chart.yaml` version-field
mutation from `1.0.0` to `1.1.0` together with a change to
`helm/scripts/deploy.sh`. -/
def diffC9 : List Char :=
  joinLines
    ["diff --git a/helm/Chart.yaml b/helm/Chart.yaml".data,
     "index 1234567..89abcde 100644".data,
     "--- a/helm/Chart.yaml".data,
     "+++ b/helm/Chart.yaml".data,
     "@@ -1,3 +1,3 @@".data,
     "-version: 1.0.0".data,
     "+version: 1.1.0".data,
     "diff --git a/helm/scripts/deploy.sh b/helm/scripts/deploy.sh".data,
     "--- a/helm/scripts/deploy.sh".data,
     "+++ b/helm/scripts/deploy.sh".data,
     "@@ -1 +1 @@".data,
     "+echo deploy".data]

/-- The concrete workspace of scenario claim C9: an application manifest at
version `9.9.9` and a chart at version `1.0.0` mirroring `9.9.9`. -/
def wsC9 : Ws :=
  ⟨some ("9.9.9".data), some ("1.0.0".data, some ("9.9.9".data))⟩

/-! ## Lemmas about split and join -/

theorem splitOnChar_ne_nil (sep : Char) (cs : List Char) :
    splitOnChar sep cs ≠ [] := by
  cases cs with
  | nil => simp [splitOnChar]
  | cons c rest => simp only [splitOnChar]; split <;> simp

theorem splitOnChar_cons_sep (sep : Char) (rest : List Char) :
    splitOnChar sep (sep :: rest) = [] :: splitOnChar sep rest := by
  simp [splitOnChar]

theorem splitOnChar_cons_ne (sep c : Char) (rest : List Char) (h : ¬c = sep) :
    splitOnChar sep (c :: rest) =
      (c :: (splitOnChar sep rest).headI) :: (splitOnChar sep rest).tail := by
  simp [splitOnChar, h]

theorem mem_splitOnChar_not_sep (sep : Char) (cs : List Char) :
    ∀ l ∈ splitOnChar sep cs, sep ∉ l := by
  induction cs with
  | nil =>
    intro l hl
    simp [splitOnChar] at hl
    simp [hl]
  | cons c rest ih =>
    intro l hl
    by_cases hc : c = sep
    · subst hc
      rw [splitOnChar_cons_sep] at hl
      rcases List.mem_cons.mp hl with h | h
      · simp [h]
      · exact ih l h
    · rw [splitOnChar_cons_ne sep c rest hc] at hl
      obtain ⟨g, gs, hr⟩ := List.exists_cons_of_ne_nil (splitOnChar_ne_nil sep rest)
      rw [hr] at hl
      simp only [List.headI, List.tail_cons] at hl
      have hg : g ∈ splitOnChar sep rest := by
        rw [hr]; exact List.mem_cons_self g gs
      rcases List.mem_cons.mp hl with h | h
      · subst h
        intro hmem
        rcases List.mem_cons.mp hmem with h1 | h1
        · exact hc h1.symm
        · exact ih g hg h1
      · refine ih l ?_
        rw [hr]
        exact List.mem_cons_of_mem g h

theorem splitOnChar_no_sep (sep : Char) (cs : List Char) (h : sep ∉ cs) :
    splitOnChar sep cs = [cs] := by
  induction cs with
  | nil => rfl
  | cons c rest ih =>
    have hc : ¬c = sep := fun e => h (e ▸ List.mem_cons_self c rest)
    have hrest : sep ∉ rest := fun e => h (List.mem_cons_of_mem c e)
    rw [splitOnChar_cons_ne sep c rest hc, ih hrest]
    rfl

theorem splitOnChar_append_sep (sep : Char) (a b : List Char) (h : sep ∉ a) :
    splitOnChar sep (a ++ sep :: b) = a :: splitOnChar sep b := by
  induction a with
  | nil => simpa using splitOnChar_cons_sep sep b
  | cons c a ih =>
    have hc : ¬c = sep := fun e => h (e ▸ List.mem_cons_self c a)
    have ha : sep ∉ a := fun e => h (List.mem_cons_of_mem c e)
    rw [List.cons_append, splitOnChar_cons_ne sep c _ hc, ih ha]
    rfl

theorem joinLines_cons_cons (l h : List Char) (t : List (List Char)) :
    joinLines (l :: h :: t) = l ++ '\n' :: joinLines (h :: t) := rfl

theorem splitOnChar_joinLines (L : List (List Char)) (hne : L ≠ [])
    (hnl : ∀ l ∈ L, '\n' ∉ l) : splitOnChar '\n' (joinLines L) = L := by
  induction L with
  | nil => exact absurd rfl hne
  | cons g gs ih =>
    cases gs with
    | nil =>
      show splitOnChar '\n' g = [g]
      exact splitOnChar_no_sep '\n' g (hnl g (List.mem_cons_self g []))
    | cons h t =>
      rw [joinLines_cons_cons,
        splitOnChar_append_sep '\n' g _ (hnl g (List.mem_cons_self g _)),
        ih (by simp) (fun l hl => hnl l (List.mem_cons_of_mem g hl))]

theorem mem_joinLines (L : List (List Char)) (l : List Char) (c : Char)
    (hl : l ∈ L) (hc : c ∈ l) : c ∈ joinLines L := by
  induction L with
  | nil => exact absurd hl (List.not_mem_nil l)
  | cons g gs ih =>
    cases gs with
    | nil =>
      rcases List.mem_cons.mp hl with h | h
      · subst h; exact hc
      · exact absurd h (List.not_mem_nil l)
    | cons h2 t =>
      rw [joinLines_cons_cons]
      rcases List.mem_cons.mp hl with h | h
      · subst h; exact List.mem_append_left _ hc
      · exact List.mem_append_right _ (List.mem_cons_of_mem _ (ih h))

/-! ## Lemmas about the version-noise filter -/

theorem filterLines_cons_not (l : List Char) (rest : List (List Char))
    (h : isVersionLine l = false) :
    filterLines (l :: rest) = l :: filterLines rest := by
  cases rest with
  | nil => rfl
  | cons h2 t => simp [filterLines, h]

theorem filterLines_pair (l next : List Char) (rest : List (List Char))
    (h : (isVersionLine l && isVersionLine next) = true) :
    filterLines (l :: next :: rest) = filterLines rest := by
  simp [filterLines, h]

theorem filterLines_nopair (l next : List Char) (rest : List (List Char))
    (h : ¬(isVersionLine l && isVersionLine next) = true) :
    filterLines (l :: next :: rest) = l :: filterLines (next :: rest) := by
  simp [filterLines, h]

theorem filterLines_sublist (L : List (List Char)) :
    (filterLines L).Sublist L := by
  induction L using filterLines.induct with
  | case1 => simp [filterLines]
  | case2 l => simp [filterLines]
  | case3 l next rest h ih =>
    rw [filterLines_pair l next rest h]
    exact List.Sublist.cons l (List.Sublist.cons next ih)
  | case4 l next rest h ih =>
    rw [filterLines_nopair l next rest h]
    exact List.Sublist.cons₂ l ih

theorem filterLines_count (L : List (List Char)) (l : List Char)
    (h : isVersionLine l = false) :
    (filterLines L).count l = L.count l := by
  induction L using filterLines.induct with
  | case1 => rfl
  | case2 x => rfl
  | case3 x next rest hx ih =>
    obtain ⟨hxv, hnv⟩ : isVersionLine x = true ∧ isVersionLine next = true := by
      simpa using hx
    have h1 : ¬x = l := fun e => by rw [e, h] at hxv; exact Bool.noConfusion hxv
    have h2 : ¬next = l := fun e => by rw [e, h] at hnv; exact Bool.noConfusion hnv
    rw [filterLines_pair x next rest hx, List.count_cons, List.count_cons, ih]
    simp [h1, h2]
  | case4 x next rest hx ih =>
    rw [filterLines_nopair x next rest hx, List.count_cons, List.count_cons, ih]

theorem noPairB_filterLines (L : List (List Char)) :
    noPairB (filterLines L) = true := by
  induction L using filterLines.induct with
  | case1 => rfl
  | case2 l => rfl
  | case3 l next rest h ih => rw [filterLines_pair l next rest h]; exact ih
  | case4 l next rest h ih =>
    rw [filterLines_nopair l next rest h]
    by_cases hl : isVersionLine l = true
    · have hn : isVersionLine next = false := by
        cases hnext : isVersionLine next with
        | false => rfl
        | true => exact absurd (by rw [hl, hnext]; rfl) h
      rw [filterLines_cons_not next rest hn]
      rw [filterLines_cons_not next rest hn] at ih
      simp only [noPairB, hn, Bool.and_false, Bool.not_false, Bool.true_and]
      exact ih
    · have hl' : isVersionLine l = false := by
        cases hx : isVersionLine l with
        | false => rfl
        | true => exact absurd hx hl
      cases hX : filterLines (next :: rest) with
      | nil => rfl
      | cons y ys =>
        rw [hX] at ih
        simp only [noPairB, hl', Bool.false_and, Bool.not_false, Bool.true_and]
        exact ih

theorem filterLines_of_noPairB (L : List (List Char)) (h : noPairB L = true) :
    filterLines L = L := by
  induction L using filterLines.induct with
  | case1 => rfl
  | case2 l => rfl
  | case3 l next rest hx ih =>
    exfalso
    simp only [noPairB, hx, Bool.not_true, Bool.false_and] at h
    exact Bool.noConfusion h
  | case4 l next rest hx ih =>
    rw [filterLines_nopair l next rest hx]
    have h2 : noPairB (next :: rest) = true := by
      simp only [noPairB, Bool.and_eq_true] at h
      exact h.2
    rw [ih h2]

theorem filterLines_keeps_head (x : List Char) (post : List (List Char))
    (hpost : ∀ l, post.head? = some l → isVersionLine l = false) :
    x ∈ filterLines (x :: post) := by
  cases post with
  | nil => simp [filterLines]
  | cons p ps =>
    have hp : isVersionLine p = false := hpost p rfl
    have : ¬(isVersionLine x && isVersionLine p) = true := by
      simp [hp]
    rw [filterLines_nopair x p ps this]
    exact List.mem_cons_self x _

theorem filterLines_keeps_isolated (pre : List (List Char)) :
    ∀ (post : List (List Char)) (x : List Char),
      isVersionLine x = true →
      (∀ l, pre.getLast? = some l → isVersionLine l = false) →
      (∀ l, post.head? = some l → isVersionLine l = false) →
      x ∈ filterLines (pre ++ x :: post) := by
  induction pre using filterLines.induct with
  | case1 =>
    intro post x _ _ hpost
    exact filterLines_keeps_head x post hpost
  | case2 a =>
    intro post x hx hpre hpost
    have ha : isVersionLine a = false := hpre a rfl
    rw [List.cons_append, List.nil_append, filterLines_cons_not a _ ha]
    exact List.mem_cons_of_mem a (filterLines_keeps_head x post hpost)
  | case3 a b pre hab ih =>
    intro post x hx hpre hpost
    rw [List.cons_append, List.cons_append, filterLines_pair a b _ hab]
    refine ih post x hx ?_ hpost
    intro l hl
    refine hpre l ?_
    cases pre with
    | nil => exact absurd hl (by simp)
    | cons c t =>
      rw [List.getLast?_cons_cons, List.getLast?_cons_cons]
      exact hl
  | case4 a b pre h ih =>
    intro post x hx hpre hpost
    rw [List.cons_append, List.cons_append, filterLines_nopair a b _ h]
    rw [← List.cons_append]
    refine List.mem_cons_of_mem a (ih post x hx ?_ hpost)
    intro l hl
    refine hpre l ?_
    rw [List.getLast?_cons_cons]
    exact hl

theorem filterVersionChanges_idempotent (s : List Char) :
    filterVersionChanges (filterVersionChanges s) = filterVersionChanges s := by
  unfold filterVersionChanges
  cases hF : filterLines (splitOnChar '\n' s) with
  | nil => rfl
  | cons g gs =>
    have hsub : ∀ l ∈ filterLines (splitOnChar '\n' s), l ∈ splitOnChar '\n' s :=
      fun l hl => (filterLines_sublist (splitOnChar '\n' s)).subset hl
    have hnl : ∀ l ∈ filterLines (splitOnChar '\n' s), '\n' ∉ l :=
      fun l hl => mem_splitOnChar_not_sep '\n' s l (hsub l hl)
    rw [← hF, splitOnChar_joinLines _ (by rw [hF]; simp) hnl,
      filterLines_of_noPairB _ (noPairB_filterLines (splitOnChar '\n' s))]

/-! ## Lemmas about decimal rendering and parsing -/

theorem natCharsAux_eq (n : Nat) : ∀ (fuel : Nat) (acc : List Char),
    n < fuel → natCharsAux fuel n acc = natChars n ++ acc := by
  induction n using Nat.strong_induction_on with
  | _ n ih =>
    intro fuel acc hf
    match fuel with
    | 0 => omega
    | f + 1 =>
      by_cases h10 : n < 10
      · simp [natCharsAux, natChars, h10]
      · have hdiv : n / 10 < n := Nat.div_lt_self (by omega) (by omega)
        have hdivf : n / 10 < f := by omega
        rw [show natCharsAux (f + 1) n acc =
            natCharsAux f (n / 10) (digitChar (n % 10) :: acc) from by
          simp [natCharsAux, h10]]
        rw [ih (n / 10) hdiv f _ hdivf]
        have hn : natChars n = natChars (n / 10) ++ [digitChar (n % 10)] := by
          show natCharsAux (n + 1) n [] = _
          rw [show natCharsAux (n + 1) n [] =
              natCharsAux n (n / 10) [digitChar (n % 10)] from by
            simp [natCharsAux, h10]]
          exact ih (n / 10) hdiv n _ (by omega)
        rw [hn, List.append_assoc]
        rfl

theorem natChars_unfold (n : Nat) : natChars n =
    if n < 10 then [digitChar n]
    else natChars (n / 10) ++ [digitChar (n % 10)] := by
  by_cases h10 : n < 10
  · simp [natChars, natCharsAux, h10]
  · have hdiv : n / 10 < n := Nat.div_lt_self (by omega) (by omega)
    rw [if_neg h10]
    show natCharsAux (n + 1) n [] = _
    rw [show natCharsAux (n + 1) n [] =
        natCharsAux n (n / 10) [digitChar (n % 10)] from by
      simp [natCharsAux, h10]]
    exact natCharsAux_eq (n / 10) n _ (by omega)

theorem digitChar_isDigit (k : Nat) (h : k < 10) :
    (digitChar k).isDigit = true := by
  interval_cases k <;> decide

theorem digitChar_toNat (k : Nat) (h : k < 10) :
    (digitChar k).toNat = 48 + k := by
  interval_cases k <;> decide

theorem natChars_all_digit (n : Nat) : ∀ c ∈ natChars n, c.isDigit = true := by
  induction n using Nat.strong_induction_on with
  | _ n ih =>
    intro c hc
    rw [natChars_unfold] at hc
    by_cases h10 : n < 10
    · rw [if_pos h10] at hc
      rw [List.mem_singleton.mp hc]
      exact digitChar_isDigit n h10
    · rw [if_neg h10] at hc
      rcases List.mem_append.mp hc with h | h
      · exact ih (n / 10) (Nat.div_lt_self (by omega) (by omega)) c h
      · rw [List.mem_singleton.mp h]
        exact digitChar_isDigit (n % 10) (Nat.mod_lt n (by omega))

theorem natChars_ne_nil (n : Nat) : natChars n ≠ [] := by
  rw [natChars_unfold]
  by_cases h10 : n < 10 <;> simp [h10]

theorem digitsVal_append (xs : List Char) (c : Char) :
    digitsVal (xs ++ [c]) = 10 * digitsVal xs + (c.toNat - 48) := by
  unfold digitsVal
  rw [List.foldl_append]
  rfl

theorem digitsVal_natChars (n : Nat) : digitsVal (natChars n) = n := by
  induction n using Nat.strong_induction_on with
  | _ n ih =>
    rw [natChars_unfold]
    by_cases h10 : n < 10
    · rw [if_pos h10]
      show digitsVal [digitChar n] = n
      simp [digitsVal, digitChar_toNat n h10]
    · rw [if_neg h10, digitsVal_append,
        ih (n / 10) (Nat.div_lt_self (by omega) (by omega)),
        digitChar_toNat (n % 10) (Nat.mod_lt n (by omega))]
      omega

theorem digit_ne_dot {c : Char} (h : c.isDigit = true) : ¬c = '.' :=
  fun e => by rw [e] at h; exact absurd h (by decide)

theorem digit_ne_nl {c : Char} (h : c.isDigit = true) : ¬c = '\n' :=
  fun e => by rw [e] at h; exact absurd h (by decide)

theorem digit_ne_minus {c : Char} (h : c.isDigit = true) : ¬c = '-' :=
  fun e => by rw [e] at h; exact absurd h (by decide)

theorem digit_ne_plus {c : Char} (h : c.isDigit = true) : ¬c = '+' :=
  fun e => by rw [e] at h; exact absurd h (by decide)

theorem natChars_no_dot (n : Nat) : '.' ∉ natChars n :=
  fun h => digit_ne_dot (natChars_all_digit n '.' h) rfl

theorem jsNumber_digits (cs : List Char) (hne : cs ≠ [])
    (hd : cs.all Char.isDigit = true) :
    jsNumberOfComponent cs = some ((digitsVal cs : Nat) : Int) := by
  cases cs with
  | nil => exact absurd rfl hne
  | cons c rest =>
    have hc : c.isDigit = true := by
      rw [List.all_cons, Bool.and_eq_true] at hd
      exact hd.1
    simp [jsNumberOfComponent, digit_ne_minus hc, digit_ne_plus hc, hd]

theorem jsNumber_natChars (n : Nat) :
    jsNumberOfComponent (natChars n) = some (n : Int) := by
  rw [jsNumber_digits (natChars n) (natChars_ne_nil n)
    (List.all_eq_true.mpr (natChars_all_digit n)), digitsVal_natChars]

theorem intChars_ofNat (n : Nat) : intChars (n : Int) = natChars n := by
  unfold intChars
  rw [if_neg (by omega)]
  norm_num

/-! ## Lemmas about bumpVersion -/

theorem split_versionString (M m p : Nat) :
    splitOnChar '.' (versionString M m p) =
      [natChars M, natChars m, natChars p] := by
  unfold versionString
  rw [splitOnChar_append_sep '.' _ _ (natChars_no_dot M),
    splitOnChar_append_sep '.' _ _ (natChars_no_dot m),
    splitOnChar_no_sep '.' _ (natChars_no_dot p)]

theorem natChars_zero : natChars 0 = ['0'] := rfl

theorem intChars_natCast_add_one (n : Nat) :
    intChars ((n : Int) + 1) = natChars (n + 1) := by
  rw [show ((n : Int) + 1) = ((n + 1 : Nat) : Int) from by push_cast; ring,
    intChars_ofNat]

theorem bumpVersion_versionString_major (M m p : Nat) :
    bumpVersion (versionString M m p) BumpKind.major =
      some (versionString (M + 1) 0 0) := by
  unfold bumpVersion
  rw [split_versionString]
  simp only [List.map_cons, List.map_nil, jsNumber_natChars]
  simp [versionString, intChars_ofNat, intChars_natCast_add_one, natChars_zero]

theorem bumpVersion_versionString_minor (M m p : Nat) :
    bumpVersion (versionString M m p) BumpKind.minor =
      some (versionString M (m + 1) 0) := by
  unfold bumpVersion
  rw [split_versionString]
  simp only [List.map_cons, List.map_nil, jsNumber_natChars]
  simp [versionString, intChars_ofNat, intChars_natCast_add_one, natChars_zero]

theorem bumpVersion_versionString_patch (M m p : Nat) :
    bumpVersion (versionString M m p) BumpKind.patch =
      some (versionString M m (p + 1)) := by
  unfold bumpVersion
  rw [split_versionString]
  simp only [List.map_cons, List.map_nil, jsNumber_natChars]
  simp [versionString, intChars_ofNat, intChars_natCast_add_one, natChars_zero]

theorem bumpVersion_isSome_of_strict (cs : List Char) (k : BumpKind)
    (h : specStrictVersion cs = true) : (bumpVersion cs k).isSome = true := by
  rw [specStrictVersion, Bool.and_eq_true, decide_eq_true_eq] at h
  obtain ⟨hlen, hall⟩ := h
  obtain ⟨a, b, c, heq⟩ := List.length_eq_three.mp hlen
  rw [List.all_eq_true] at hall
  have ha := hall a (by rw [heq]; simp)
  have hb := hall b (by rw [heq]; simp)
  have hc := hall c (by rw [heq]; simp)
  rw [Bool.and_eq_true] at ha hb hc
  unfold bumpVersion
  rw [heq]
  simp only [List.map_cons, List.map_nil]
  rw [jsNumber_digits a (by simpa using ha.1) ha.2,
    jsNumber_digits b (by simpa using hb.1) hb.2,
    jsNumber_digits c (by simpa using hc.1) hc.2]
  cases k <;> rfl

/-! ## Lemmas about the diff --git header regex -/

theorem eatLit_self_append (p x : List Char) : eatLit p (p ++ x) = some x := by
  induction p with
  | nil => rfl
  | cons l ls ih => simp [eatLit, ih]

theorem isPre_append_self (p x : List Char) : isPre p (p ++ x) = true := by
  simp [isPre, eatLit_self_append]

theorem capAux_cons (c : Char) (rest : List Char) :
    capAux (c :: rest) =
      if isPre " b/".data rest = true then some [c]
      else (capAux rest).map (fun t => c :: t) := rfl

theorem capAux_eq (q : List Char) : ∀ (p : List Char), p ≠ [] → ' ' ∉ p →
    capAux (p ++ (' ' :: 'b' :: '/' :: q)) = some p := by
  intro p
  induction p with
  | nil => intro h _; exact absurd rfl h
  | cons c p ih =>
    intro _ hsp
    cases p with
    | nil => simp [capAux, isPre, eatLit]
    | cons d t =>
      have hd : ¬d = ' ' :=
        fun e => hsp (e ▸ List.mem_cons_of_mem c (List.mem_cons_self d t))
      have hnotpre :
          isPre " b/".data ((d :: t) ++ (' ' :: 'b' :: '/' :: q)) = false := by
        simp [isPre, eatLit, hd]
      have hih : capAux ((d :: t) ++ (' ' :: 'b' :: '/' :: q)) = some (d :: t) :=
        ih (by simp) (fun e => hsp (List.mem_cons_of_mem c e))
      rw [List.cons_append, capAux_cons, hnotpre, hih]
      simp

theorem headerScan_of_first (l : List Char) (p : List Char)
    (h : isPre "diff --git a/".data l = true)
    (hc : capAux (l.drop 13) = some p) : headerScan l = some p := by
  cases l with
  | nil => simp [isPre, eatLit] at h
  | cons c rest =>
    unfold headerScan
    rw [if_pos h, hc]

theorem headerLine_eq (p : List Char) :
    headerLine p =
      "diff --git a/".data ++ (p ++ (' ' :: 'b' :: '/' :: p)) := by
  unfold headerLine
  rw [show " b/".data = ' ' :: 'b' :: '/' :: ([] : List Char) from rfl]
  simp

theorem matchDiffHeader_headerLine (p : List Char) (hne : p ≠ [])
    (hsp : ' ' ∉ p) : matchDiffHeader (headerLine p) = some p := by
  unfold matchDiffHeader
  rw [headerLine_eq]
  refine headerScan_of_first _ p (isPre_append_self _ _) ?_
  rw [show (13 : Nat) = ("diff --git a/".data).length from rfl, List.drop_left]
  exact capAux_eq p p hne hsp

/-! ## Lemmas about the detectChangeType loop -/

theorem stepLine_header (pkg : Bool) (s : DetectSt) (p : List Char)
    (hne : p ≠ []) (hsp : ' ' ∉ p) :
    stepLine pkg s (headerLine p) = { s with cur := p } := by
  have hpre : isPre "diff --git".data (headerLine p) = true := by
    rw [headerLine_eq,
      show "diff --git a/".data = "diff --git".data ++ " a/".data from rfl,
      List.append_assoc]
    exact isPre_append_self _ _
  unfold stepLine
  rw [if_pos hpre, matchDiffHeader_headerLine p hne hsp]

theorem stepLine_meta (pkg : Bool) (s : DetectSt) (l : List Char)
    (hh : isPre "diff --git".data l = false)
    (hm : isDetectMetaLine l = true) : stepLine pkg s l = s := by
  simp [stepLine, hh, hm]

theorem stepLine_content_script (pkg : Bool) (s : DetectSt) (l : List Char)
    (hh : isPre "diff --git".data l = false)
    (hm : isDetectMetaLine l = false)
    (hcur : isPre "helm/".data s.cur = true)
    (hcy : containsSub "Chart.yaml".data s.cur = false)
    (hscript : isHelmScriptFile s.cur = true) :
    stepLine pkg s l = { s with helm := true, script := true } := by
  simp [stepLine, hh, hm, hcur, hcy, hscript]

theorem foldBody (pkg : Bool) (body : List (List Char)) :
    ∀ (s : DetectSt),
    (∀ l ∈ body, isPre "diff --git".data l = false) →
    isPre "helm/".data s.cur = true →
    containsSub "Chart.yaml".data s.cur = false →
    isHelmScriptFile s.cur = true →
    (body.foldl (stepLine pkg) s).cur = s.cur ∧
    (body.foldl (stepLine pkg) s).app = s.app ∧
    (body.foldl (stepLine pkg) s).nonScript = s.nonScript ∧
    (s.helm = true → (body.foldl (stepLine pkg) s).helm = true) ∧
    (s.script = true → (body.foldl (stepLine pkg) s).script = true) ∧
    ((∃ l ∈ body, ContentLine l) →
      (body.foldl (stepLine pkg) s).helm = true ∧
      (body.foldl (stepLine pkg) s).script = true) := by
  induction body with
  | nil =>
    intro s _ _ _ _
    refine ⟨rfl, rfl, rfl, fun h => h, fun h => h, fun hex => ?_⟩
    obtain ⟨l, hl, _⟩ := hex
    exact absurd hl (List.not_mem_nil l)
  | cons l body ih =>
    intro s hnh hcur hcy hscript
    have hhl : isPre "diff --git".data l = false :=
      hnh l (List.mem_cons_self l body)
    have hnh' : ∀ x ∈ body, isPre "diff --git".data x = false :=
      fun x hx => hnh x (List.mem_cons_of_mem l hx)
    rw [List.foldl_cons]
    cases hm : isDetectMetaLine l with
    | true =>
      rw [stepLine_meta pkg s l hhl hm]
      obtain ⟨h1, h2, h3, h4, h5, h6⟩ := ih s hnh' hcur hcy hscript
      refine ⟨h1, h2, h3, h4, h5, fun hex => ?_⟩
      obtain ⟨x, hx, hcl⟩ := hex
      rcases List.mem_cons.mp hx with he | he
      · have hc2 : isDetectMetaLine x = false := hcl.2
        rw [he, hm] at hc2
        exact Bool.noConfusion hc2
      · exact h6 ⟨x, he, hcl⟩
    | false =>
      rw [stepLine_content_script pkg s l hhl hm hcur hcy hscript]
      obtain ⟨h1, h2, h3, h4, h5, h6⟩ :=
        ih { s with helm := true, script := true } hnh' hcur hcy hscript
      exact ⟨h1, h2, h3, fun _ => h4 rfl, fun _ => h5 rfl,
        fun _ => ⟨h4 rfl, h5 rfl⟩⟩

theorem foldEntries (pkg : Bool) (es : List FileEntry) :
    ∀ (s : DetectSt),
    (∀ e ∈ es, GoodEntry e) →
    DetectInv s →
    ((diffLinesOf es).foldl (stepLine pkg) s).app = false ∧
    ((diffLinesOf es).foldl (stepLine pkg) s).nonScript = false ∧
    (s.helm = true → ((diffLinesOf es).foldl (stepLine pkg) s).helm = true) ∧
    (s.script = true →
      ((diffLinesOf es).foldl (stepLine pkg) s).script = true) ∧
    ((∃ e ∈ es, ∃ l ∈ e.body, ContentLine l) →
      ((diffLinesOf es).foldl (stepLine pkg) s).helm = true ∧
      ((diffLinesOf es).foldl (stepLine pkg) s).script = true) := by
  induction es with
  | nil =>
    intro s _ hinv
    refine ⟨hinv.2.1, hinv.2.2, fun h => h, fun h => h, fun hex => ?_⟩
    obtain ⟨e, he, _⟩ := hex
    exact absurd he (List.not_mem_nil e)
  | cons e es ih =>
    intro s hgood hinv
    have hge : GoodEntry e := hgood e (List.mem_cons_self e es)
    obtain ⟨⟨hne, hsp, hnl, hhelm, hcy, hscript⟩, hbody⟩ := hge
    have hdl : diffLinesOf (e :: es) =
        headerLine e.path :: (e.body ++ diffLinesOf es) := rfl
    rw [hdl, List.foldl_cons, stepLine_header pkg s e.path hne hsp,
      List.foldl_append]
    set s1 : DetectSt := { s with cur := e.path } with hs1
    obtain ⟨b1, b2, b3, b4, b5, b6⟩ :=
      foldBody pkg e.body s1 (fun l hl => (hbody l hl).1) hhelm hcy hscript
    set s2 := e.body.foldl (stepLine pkg) s1 with hs2
    have hinv2 : DetectInv s2 := by
      refine ⟨Or.inr ?_, ?_, ?_⟩
      · rw [b1]; exact ⟨hhelm, hcy, hscript⟩
      · rw [b2]; exact hinv.2.1
      · rw [b3]; exact hinv.2.2
    obtain ⟨r1, r2, r3, r4, r5⟩ :=
      ih s2 (fun x hx => hgood x (List.mem_cons_of_mem e hx)) hinv2
    refine ⟨r1, r2, fun hh => r3 (b4 hh), fun hh => r4 (b5 hh), fun hex => ?_⟩
    obtain ⟨x, hx, l, hl, hcl⟩ := hex
    rcases List.mem_cons.mp hx with he | he
    · subst he
      obtain ⟨bh, bs⟩ := b6 ⟨l, hl, hcl⟩
      exact ⟨r3 bh, r4 bs⟩
    · exact r5 ⟨x, he, l, hl, hcl⟩

theorem mem_diffLinesOf (es : List FileEntry) (l : List Char)
    (hl : l ∈ diffLinesOf es) :
    (∃ e ∈ es, l = headerLine e.path) ∨ (∃ e ∈ es, l ∈ e.body) := by
  induction es with
  | nil => exact absurd hl (List.not_mem_nil l)
  | cons e es ih =>
    rcases List.mem_cons.mp hl with h | h
    · exact Or.inl ⟨e, List.mem_cons_self e es, h⟩
    · rcases List.mem_append.mp h with h2 | h2
      · exact Or.inr ⟨e, List.mem_cons_self e es, h2⟩
      · rcases ih h2 with ⟨x, hx, hx2⟩ | ⟨x, hx, hx2⟩
        · exact Or.inl ⟨x, List.mem_cons_of_mem e hx, hx2⟩
        · exact Or.inr ⟨x, List.mem_cons_of_mem e hx, hx2⟩

theorem headerLine_no_nl (p : List Char) (hnl : '\n' ∉ p) :
    '\n' ∉ headerLine p := by
  rw [headerLine_eq]
  intro hmem
  rcases List.mem_append.mp hmem with h | h
  · exact absurd h (by decide)
  · rcases List.mem_append.mp h with h2 | h2
    · exact hnl h2
    · rcases List.mem_cons.mp h2 with h3 | h3
      · exact absurd h3 (by decide)
      · rcases List.mem_cons.mp h3 with h4 | h4
        · exact absurd h4 (by decide)
        · rcases List.mem_cons.mp h4 with h5 | h5
          · exact absurd h5 (by decide)
          · exact hnl h5

theorem renderDiff_lines (es : List FileEntry) (hne : es ≠ [])
    (hgood : ∀ e ∈ es, GoodEntry e) :
    splitOnChar '\n' (renderDiff es) = diffLinesOf es := by
  refine splitOnChar_joinLines _ ?_ ?_
  · cases es with
    | nil => exact absurd rfl hne
    | cons e es => simp [diffLinesOf]
  · intro l hl
    rcases mem_diffLinesOf es l hl with ⟨e, he, heq⟩ | ⟨e, he, hmem⟩
    · rw [heq]
      exact headerLine_no_nl e.path ((hgood e he).1.2.2.1
        : '\n' ∉ e.path)
    · exact ((hgood e he).2 l hmem).2

theorem renderDiff_not_blank (e : FileEntry) (es : List FileEntry) :
    (renderDiff (e :: es)).all isJsSpace = false := by
  have hd : 'd' ∈ renderDiff (e :: es) := by
    refine mem_joinLines _ (headerLine e.path) 'd' (List.mem_cons_self _ _) ?_
    rw [headerLine_eq]
    exact List.mem_append_left _ (by decide)
  cases hall : (renderDiff (e :: es)).all isJsSpace with
  | false => rfl
  | true =>
    have := List.all_eq_true.mp hall 'd' hd
    exact absurd this (by decide)

/-! ## Claim theorems -/

/-- C1: For every numeric version triple rendered as `M.m.p`, `bumpVersion`
with `major` returns `(M+1).0.0`, with `minor` returns `M.(m+1).0`, and with
`patch` returns `M.m.(p+1)`; consequently each result strictly exceeds the
input under lexicographic (major, minor, patch) order, and all components
below the bumped one are reset to zero (visible in the three equations). -/
theorem C1_bump_triples (M m p : Nat) :
    bumpVersion (versionString M m p) BumpKind.major =
      some (versionString (M + 1) 0 0) ∧
    bumpVersion (versionString M m p) BumpKind.minor =
      some (versionString M (m + 1) 0) ∧
    bumpVersion (versionString M m p) BumpKind.patch =
      some (versionString M m (p + 1)) ∧
    lex3Lt (M, m, p) (M + 1, 0, 0) ∧ lex3Lt (M, m, p) (M, m + 1, 0) ∧
    lex3Lt (M, m, p) (M, m, p + 1) :=
  ⟨bumpVersion_versionString_major M m p,
   bumpVersion_versionString_minor M m p,
   bumpVersion_versionString_patch M m p,
   by simp [lex3Lt], by simp [lex3Lt], by simp [lex3Lt]⟩

/-- C2 counterexample: in the diff
`-version: 1.0.0\n+version: 1.1.0\nx` the line `+version: 1.1.0` matches the
version pattern and its immediate successor `x` does not, yet the filter's
output is just `x` — the matching line was consumed as the second element of
the pair formed with its predecessor, so the claim's second conjunct ("a line
matching the pattern whose immediate successor does not match is kept, for
every input diff") is false.  The first conjunct also fails: in
`[+version: 1.0.0, -version: 1.1.0, +version: 1.2.0]` the adjacent
deletion/addition matching pair formed by the last two lines is not removed
as a pair — the last line survives, because the scan already consumed the
middle line with the first.  Both refutations instantiate the claim on a
three-line diff `[a, b, c]`. -/
theorem C2_counterexample :
    (filterVersionChanges
        ("-version: 1.0.0\n+version: 1.1.0\nx".data) = "x".data ∧
      isVersionLine ("+version: 1.1.0".data) = true ∧
      isVersionLine ("x".data) = false) ∧
    ¬(∀ (a b c : List Char), isVersionLine b = true →
        isVersionLine c = false → b ∈ filterLines [a, b, c]) ∧
    ¬(∀ (a b c : List Char), isVersionLine b = true →
        isVersionLine c = true → isPre "-".data b = true →
        isPre "+".data c = true →
        b ∉ filterLines [a, b, c] ∧ c ∉ filterLines [a, b, c]) :=
  ⟨by decide,
   fun h =>
    absurd (h ("-version: 1.0.0".data) ("+version: 1.1.0".data) ("x".data)
      (by decide) (by decide)) (by decide),
   fun h =>
    absurd (h ("+version: 1.0.0".data) ("-version: 1.1.0".data)
      ("+version: 1.2.0".data) (by decide) (by decide) (by decide)
      (by decide)).2 (by decide)⟩

/-- C2 (amended): the scan removes an adjacent pair of matching lines
regardless of their `+`/`-` markers whenever it reaches the first of them
unconsumed, and a matching line both of whose neighbours fail to match (an
isolated match) is always kept; but a matching line whose successor does not
match can still be removed, as the second element of a pair with a matching
predecessor. -/
theorem C2_amended_scan (pre post : List (List Char)) (x a b : List Char)
    (rest : List (List Char))
    (hx : isVersionLine x = true)
    (hpre : ∀ l, pre.getLast? = some l → isVersionLine l = false)
    (hpost : ∀ l, post.head? = some l → isVersionLine l = false)
    (hab : (isVersionLine a && isVersionLine b) = true) :
    x ∈ filterLines (pre ++ x :: post) ∧
    filterLines (a :: b :: rest) = filterLines rest :=
  ⟨filterLines_keeps_isolated pre post x hx hpre hpost,
   filterLines_pair a b rest hab⟩

theorem C2_amended_scan_witness :
    "+appVersion: 2.0.0".data ∈
      filterLines (["ctx".data] ++ "+appVersion: 2.0.0".data :: ["x".data]) ∧
    filterLines
        ("+version: 1.0.0".data :: "+version: 1.1.0".data :: ["z".data]) =
      filterLines ["z".data] :=
  C2_amended_scan ["ctx".data] ["x".data] ("+appVersion: 2.0.0".data)
    ("+version: 1.0.0".data) ("+version: 1.1.0".data) ["z".data]
    (by decide)
    (by intro l hl; injection hl with h; rw [← h]; decide)
    (by intro l hl; injection hl with h; rw [← h]; decide)
    (by decide)

/-- C3: a diff whose changed files all lie under `helm/`, are all script
files (script extension substring, or a `scripts/`/`hooks/` segment), none
referencing `Chart.yaml`, with at least one classified hunk line, aggregates
to helm-only — for both values of `packageJsonExists`, in particular even
when an application manifest exists. -/
theorem C3_scripts_only_helmOnly (pkg : Bool) (es : List FileEntry)
    (hne : es ≠ []) (hgood : ∀ e ∈ es, GoodEntry e)
    (hcontent : ∃ e ∈ es, ∃ l ∈ e.body, ContentLine l) :
    (detectChangeType pkg (renderDiff es)).type = CType.helmOnly := by
  cases es with
  | nil => exact absurd rfl hne
  | cons e es2 =>
    unfold detectChangeType
    rw [if_neg (by rw [renderDiff_not_blank e es2]; simp)]
    rw [renderDiff_lines (e :: es2) (by simp) hgood]
    obtain ⟨r1, r2, r3, r4, r5⟩ := foldEntries pkg (e :: es2)
      ⟨[], false, false, false, false⟩ hgood ⟨Or.inl rfl, rfl, rfl⟩
    obtain ⟨rh, rs⟩ := r5 hcontent
    unfold decideChangeType
    cases pkg with
    | false => simp [rh]
    | true => simp [rh, rs, r1, r2]

theorem C3_scripts_only_helmOnly_witness :
    (∀ e ∈ [(⟨"helm/scripts/deploy.sh".data, ["+echo hi".data]⟩ : FileEntry)],
      GoodEntry e) ∧
    (detectChangeType true (renderDiff
      [⟨"helm/scripts/deploy.sh".data, ["+echo hi".data]⟩])).type =
      CType.helmOnly :=
  ⟨by decide,
   C3_scripts_only_helmOnly true
     [⟨"helm/scripts/deploy.sh".data, ["+echo hi".data]⟩]
     (by simp) (by decide)
     ⟨_, List.mem_cons_self _ _, "+echo hi".data,
       List.mem_cons_self _ _, by decide⟩⟩

/-- C4: when every changed file matches a rule of the exclusion set, the
relevant-file filter empties the list, the produced diff is empty, and
change-type aggregation yields `none` — an excluded file never reaches the
infra or app buckets. -/
theorem C4_excluded_only_none (pkg : Bool) (files : List (List Char))
    (diffOf : List (List Char) → List Char)
    (hexc : ∀ f ∈ files, isExcludedFile f = true) :
    (detectChangeType pkg (getStagedChangesModel files diffOf)).type =
      CType.none := by
  have hrel : files.filter (fun f => !isExcludedFile f) = [] := by
    rw [List.filter_eq_nil_iff]
    intro a ha
    simp [hexc a ha]
  have hmodel : getStagedChangesModel files diffOf = [] := by
    unfold getStagedChangesModel
    by_cases hf : files.isEmpty = true
    · rw [if_pos hf]
    · rw [if_neg hf]
      simp [hrel]
  rw [hmodel]
  unfold detectChangeType
  rw [if_pos (show ([] : List Char).all isJsSpace = true from rfl)]

theorem C4_excluded_only_none_witness :
    (∀ f ∈ (["package-lock.json".data, "dist/bundle.min.js".data] :
        List (List Char)), isExcludedFile f = true) ∧
    (detectChangeType true (getStagedChangesModel
      ["package-lock.json".data, "dist/bundle.min.js".data]
      (fun _ => "diff --git a/x b/x".data))).type = CType.none :=
  ⟨by decide,
   C4_excluded_only_none true
     ["package-lock.json".data, "dist/bundle.min.js".data]
     (fun _ => "diff --git a/x b/x".data) (by decide)⟩

set_option maxRecDepth 10000 in
/-- C5 (code bug): the truncation contract `estimateTokens(result) ≤ budget`
fails.  At budget 10 (the claim quantifies over every positive budget; the
same under-accounting bites the production budget 6000 with a long header
line), the one-file diff `diff --git a/xxx…x` has estimate 25, so the
truncating path runs; it pushes the whole header unconditionally and appends
the synthetic summary line, neither charged against the budget, returning
text whose estimate (39) exceeds the budget. -/
theorem C5_truncation_exceeds_budget :
    0 < 10 ∧
    10 < estimateTokens ("diff --git a/".data ++ List.replicate 87 'x') ∧
    10 < estimateTokens
      (truncateDiffForCommit ("diff --git a/".data ++ List.replicate 87 'x')
        10) :=
  ⟨by decide, by decide, by decide⟩

/-- C6 counterexample: the claim's "only if" direction — that `bumpVersion`
fails on every string that is not a strict three-component dotted string of
non-negative integers — is false: `1..2` is not strict (its middle component
is empty) yet `bumpVersion` succeeds, because JavaScript `Number('')` is `0`,
not `NaN` (concretely, `bumpVersion "1..2" major = some "2.0.0"`). -/
theorem C6_counterexample :
    ¬(∀ (cs : List Char) (k : BumpKind),
        specStrictVersion cs = false → bumpVersion cs k = none) := fun h =>
  absurd (h ("1..2".data) BumpKind.major (by decide)) (by decide)

/-- C6 (amended): for every strict `N.N.N` non-negative-integer string and
every bump kind, `bumpVersion` succeeds (so a failure implies the string is
not strict); the converse fails, since some non-strict strings also succeed. -/
theorem C6_strict_bump_succeeds (cs : List Char) (k : BumpKind)
    (h : specStrictVersion cs = true) : (bumpVersion cs k).isSome = true :=
  bumpVersion_isSome_of_strict cs k h

theorem C6_strict_bump_succeeds_witness :
    specStrictVersion ("1.2.3".data) = true ∧
    (bumpVersion ("1.2.3".data) BumpKind.patch).isSome = true :=
  ⟨by decide, C6_strict_bump_succeeds ("1.2.3".data) BumpKind.patch (by decide)⟩

/-- C7: the version-noise filter is idempotent — after one pass no two
adjacent surviving lines both match a version pattern, so a second pass over
the re-split output removes nothing. -/
theorem C7_filter_idempotent (s : List Char) :
    filterVersionChanges (filterVersionChanges s) = filterVersionChanges s :=
  filterVersionChanges_idempotent s

/-- C8: with no application manifest in the workspace
(`packageJsonExists = false`), `detectChangeType` returns helm-only or none
for every input diff — never app-only or both. -/
theorem C8_no_manifest_never_app (cs : List Char) :
    (detectChangeType false cs).type = CType.helmOnly ∨
    (detectChangeType false cs).type = CType.none := by
  unfold detectChangeType
  by_cases hall : cs.all isJsSpace = true
  · rw [if_pos hall]
    exact Or.inr rfl
  · rw [if_neg hall]
    unfold decideChangeType
    cases hh : ((splitOnChar '\n' cs).foldl (stepLine false)
        ⟨[], false, false, false, false⟩).helm with
    | true => exact Or.inl (by simp [hh])
    | false => exact Or.inr (by simp [hh])

/-- C9: for the concrete diff touching only `helm/Chart.yaml` (a version
mutation from `1.0.0`) and `helm/scripts/deploy.sh`, noise filtering then
aggregation yields helm-only; a minor bump on the chart version `1.0.0`
yields `1.1.0`, and executing the helm-only bump rewrites only the chart
version, leaving the application manifest (`9.9.9`) and the chart
`appVersion` mirror untouched. -/
theorem C9_scenario :
    (detectChangeType true (filterVersionChanges diffC9)).type =
      CType.helmOnly ∧
    bumpVersion ("1.0.0".data) BumpKind.minor = some ("1.1.0".data) ∧
    executeVersionBump BumpKind.minor CType.helmOnly wsC9 =
      some ⟨some ("9.9.9".data), some ("1.1.0".data, some ("9.9.9".data))⟩ :=
  ⟨by decide, by decide, by decide⟩

/-- C10: for every input diff text, the filtered line sequence is a
subsequence of the input's line sequence (no line altered or reordered), and
every line that does not match a version pattern keeps its exact occurrence
count — only version-pattern lines are ever dropped. -/
theorem C10_filter_line_subsequence (s : List Char) :
    (filterLines (splitOnChar '\n' s)).Sublist (splitOnChar '\n' s) ∧
    ∀ l : List Char, isVersionLine l = false →
      (filterLines (splitOnChar '\n' s)).count l =
        (splitOnChar '\n' s).count l :=
  ⟨filterLines_sublist _, fun l hl => filterLines_count _ l hl⟩

theorem C10_filter_line_subsequence_witness :
    isVersionLine ("ctx".data) = false ∧
    (filterLines (splitOnChar '\n'
        ("-version: 1.0.0\n+version: 1.1.0\nctx".data))).count ("ctx".data) =
      (splitOnChar '\n'
        ("-version: 1.0.0\n+version: 1.1.0\nctx".data)).count ("ctx".data) :=
  ⟨by decide,
   (C10_filter_line_subsequence
     ("-version: 1.0.0\n+version: 1.1.0\nctx".data)).2 ("ctx".data)
     (by decide)⟩

end Aibump

